import Mathlib

/-!
Verification of the `aimakerspace` text-splitting and vector-store code.

The development shallowly embeds two Python modules:

* `text_utils.py` — `CharacterTextSplitter` (fixed windows) and
  `RecursiveTextSplitter` (separator-priority recursive splitting with an
  overlap-seeding merge step).  Strings are modelled as `List Char`; Python's
  `str.split(sep)` (for a non-empty `sep`) and `sep.join(parts)` are given
  executable models below.

* `vectordatabase.py` — `VectorDatabase` over a Python `dict`, whose
  observable content is modelled as an association list in insertion order
  (Python dicts preserve insertion order; assignment to an existing key keeps
  its original position).  Scores are modelled over `ℚ`; `sorted(..., key =
  score, reverse = True)` is modelled as the stable descending sort.
-/

namespace AIMS

/-! ### Python primitives used by `text_utils.py` -/

/-- Python `range(0, stop, step)` for `step > 0`, as the list of start
offsets.  `(stop + step - 1) / step` is the number of iterations. -/
def pyRange (stop step : Nat) : List Nat :=
  (List.range ((stop + step - 1) / step)).map (fun i => i * step)

/-- Fuel-driven worker for Python `text.split(sep)` with non-empty `sep`:
scan left to right, cutting at each occurrence of `sep`.  The fuel is only
there to make the recursion structural; `pySplit` supplies enough fuel. -/
def splitOnFuel (sep : List Char) : Nat → List Char → List (List Char)
  | _, [] => [[]]
  | 0, t => [t]
  | Nat.succ fuel, c :: rest =>
    if sep.isPrefixOf (c :: rest) then
      [] :: splitOnFuel sep fuel (List.drop sep.length (c :: rest))
    else
      match splitOnFuel sep fuel rest with
      | [] => [[c]]
      | g :: gs => (c :: g) :: gs

/-- Python `text.split(sep)` for non-empty `sep`. -/
def pySplit (sep text : List Char) : List (List Char) :=
  splitOnFuel sep text.length text

/-- Python `sep.join(parts)`. -/
def joinSep (sep : List Char) : List (List Char) → List Char
  | [] => []
  | [x] => x
  | x :: y :: rest => x ++ sep ++ joinSep sep (y :: rest)

/-! ### Embedding of `RecursiveTextSplitter` (text_utils.py) -/

/-- `RecursiveTextSplitter._split_text_with_separator`: split by the
separator, or into single characters when the separator is empty. -/
def splitWithSeparator (text sep : List Char) : List (List Char) :=
  if sep.isEmpty then text.map (fun c => [c]) else pySplit sep text

/-- `max(len(s) for s in splits) if splits else 0`. -/
def maxSplitLen (splits : List (List Char)) : Nat :=
  (splits.map List.length).foldl Nat.max 0

/-- The overlap-seeding loop of `RecursiveTextSplitter._merge_splits`:
walk the just-closed chunk's pieces from the end, keep accumulating pieces
while the running total (piece length plus separator length each) stays
within `chunk_overlap`, and stop at the piece that overflows. -/
def takeOverlap (sepLen chunk_overlap : Nat) :
    List (List Char) → Nat → List (List Char) → List (List Char)
  | [], _, acc => acc
  | item :: rest, ol, acc =>
    let ol2 := ol + item.length + sepLen
    if chunk_overlap < ol2 then acc
    else takeOverlap sepLen chunk_overlap rest ol2 (item :: acc)

/-- Loop state of `RecursiveTextSplitter._merge_splits`: emitted chunks,
the pieces of the chunk being built, and the tracked `current_length`. -/
structure MergeState where
  chunks : List (List Char)
  cur : List (List Char)
  curLen : Nat
deriving DecidableEq

/-- One iteration of the loop in `RecursiveTextSplitter._merge_splits`:
if adding the piece (plus one separator) would exceed `chunk_size` and the
running chunk is non-empty, emit the running chunk and reseed it with the
overlap suffix; then append the piece unconditionally.  The Python code adds
`split_len + len(separator)` to `current_length` after the append (the list
is never empty at that point). -/
def mergeStep (chunk_size chunk_overlap : Nat) (sep : List Char)
    (st : MergeState) (s : List Char) : MergeState :=
  let st1 :=
    if chunk_size < st.curLen + s.length + sep.length then
      if st.cur.isEmpty then st
      else
        let ov := takeOverlap sep.length chunk_overlap st.cur.reverse 0 []
        { chunks := st.chunks ++ [joinSep sep st.cur]
          cur := ov
          curLen := (ov.map List.length).sum + sep.length * (ov.length - 1) }
    else st
  { chunks := st1.chunks
    cur := st1.cur ++ [s]
    curLen := st1.curLen + s.length + sep.length }

/-- `RecursiveTextSplitter._merge_splits`. -/
def mergeSplits (chunk_size chunk_overlap : Nat)
    (splits : List (List Char)) (sep : List Char) : List (List Char) :=
  let st := splits.foldl (mergeStep chunk_size chunk_overlap sep) ⟨[], [], 0⟩
  if st.cur.isEmpty then st.chunks else st.chunks ++ [joinSep sep st.cur]

/-- The default separator list of `RecursiveTextSplitter`:
paragraph break, line break, sentence end, word space, character fallback. -/
def defaultSeparators : List (List Char) :=
  [['\n', '\n'], ['\n'], ['.', ' '], [' '], []]

/-- `RecursiveTextSplitter.split`, written as a recursion over the separator
slice.  The Python `for` loop over separators returns in every branch of its
first iteration, so it only ever examines the head separator; the
`good_splits` branch recurses with `separators[i+1:]` (which is non-empty
there, so the subsplitter's `separators or default` keeps exactly it). -/
def recursiveSplit (chunk_size chunk_overlap : Nat) :
    List (List Char) → List Char → List (List Char)
  | [], text => [text]
  | sep :: rest, text =>
    let splits := splitWithSeparator text sep
    if maxSplitLen splits ≤ chunk_size then
      mergeSplits chunk_size chunk_overlap splits sep
    else if rest.isEmpty then
      mergeSplits chunk_size chunk_overlap splits sep
    else
      let good := splits.flatMap (fun s =>
        if s.length ≤ chunk_size then [s]
        else recursiveSplit chunk_size chunk_overlap rest s)
      mergeSplits chunk_size chunk_overlap good sep

/-- `CharacterTextSplitter.split`: fixed windows of `chunk_size` characters
starting every `chunk_size - chunk_overlap` characters. -/
def characterSplit (chunk_size chunk_overlap : Nat) (text : List Char) :
    List (List Char) :=
  (pyRange text.length (chunk_size - chunk_overlap)).map
    (fun i => (text.drop i).take chunk_size)

/-! ### Constructors and their configuration check (text_utils.py)

Both splitter constructors run `assert chunk_size > chunk_overlap` before
storing any field; the failure is modelled as an `Except.error` carrying the
spec's configuration-error value. -/

inductive SplitterError where
  | configurationError
deriving DecidableEq

structure CharacterTextSplitter where
  chunk_size : Int
  chunk_overlap : Int
deriving DecidableEq

/-- `CharacterTextSplitter.__init__`. -/
def CharacterTextSplitter.make (chunk_size chunk_overlap : Int) :
    Except SplitterError CharacterTextSplitter :=
  if chunk_overlap < chunk_size then .ok ⟨chunk_size, chunk_overlap⟩
  else .error .configurationError

structure RecursiveTextSplitter where
  chunk_size : Int
  chunk_overlap : Int
  separators : List (List Char)
deriving DecidableEq

/-- `RecursiveTextSplitter.__init__`; `separators or [...]` falls back to the
default list when the argument is `None` or the empty list. -/
def RecursiveTextSplitter.make (chunk_size chunk_overlap : Int)
    (separators : Option (List (List Char))) :
    Except SplitterError RecursiveTextSplitter :=
  if chunk_overlap < chunk_size then
    .ok ⟨chunk_size, chunk_overlap,
      match separators with
      | some seps => if seps.isEmpty then defaultSeparators else seps
      | none => defaultSeparators⟩
  else .error .configurationError

/-! ### Embedding of `VectorDatabase` (vectordatabase.py) -/

/-- Assignment `d[k] = v` on a Python dict viewed as its insertion-ordered
association list: an existing key keeps its position and gets the new value,
a new key is appended. -/
def assocUpdate {A : Type} : List (String × A) → String → A → List (String × A)
  | [], k, v => [(k, v)]
  | p :: rest, k, v =>
    if p.1 = k then (k, v) :: rest else p :: assocUpdate rest k v

/-- `d.get(k, None)` on the association-list view of a Python dict. -/
def assocGet {A : Type} : List (String × A) → String → Option A
  | [], _ => none
  | p :: rest, k => if p.1 = k then some p.2 else assocGet rest k

/-- The observable state of `VectorDatabase`: `self.vectors` and
`self.metadata`, both insertion-ordered key maps.  Vectors are `List ℚ`;
metadata entries have an arbitrary type `M`. -/
structure VectorDB (M : Type) where
  vectors : List (String × List ℚ)
  metadata : List (String × M)

/-- `VectorDatabase.__init__`: both maps start empty. -/
def VectorDB.empty {M : Type} : VectorDB M := ⟨[], []⟩

/-- `VectorDatabase.insert`: always store the vector; store the metadata
only when one was passed (`if metadata is not None`). -/
def VectorDB.insert {M : Type} (db : VectorDB M) (key : String)
    (vector : List ℚ) (metadata : Option M) : VectorDB M :=
  { vectors := assocUpdate db.vectors key vector
    metadata :=
      match metadata with
      | some md => assocUpdate db.metadata key md
      | none => db.metadata }

/-- `VectorDatabase.retrieve_from_key`: `self.vectors.get(key, None)`. -/
def VectorDB.retrieve_from_key {M : Type} (db : VectorDB M) (key : String) :
    Option (List ℚ) :=
  assocGet db.vectors key

/-- The metadata stored for a key (`self.metadata.get(key, ...)`). -/
def VectorDB.metadataGet {M : Type} (db : VectorDB M) (key : String) :
    Option M :=
  assocGet db.metadata key

/-- The `scores` list built inside `VectorDatabase.search`: one
`(key, distance_measure(query, vector))` pair per stored record, in store
order. -/
def VectorDB.scoresOf {M : Type} (db : VectorDB M) (query_vector : List ℚ)
    (distance_measure : List ℚ → List ℚ → ℚ) : List (String × ℚ) :=
  db.vectors.map (fun p => (p.1, distance_measure query_vector p.2))

/-- Insert one scored pair into a descending-sorted list, after every entry
whose score is at least as large (the stable position). -/
def insertDesc (p : String × ℚ) : List (String × ℚ) → List (String × ℚ)
  | [] => [p]
  | q :: rest => if q.2 < p.2 then p :: q :: rest else q :: insertDesc p rest

/-- Python `sorted(scores, key = score, reverse = True)`: the stable sort by
descending score (equal scores keep their input order). -/
def sortDesc (l : List (String × ℚ)) : List (String × ℚ) :=
  l.foldl (fun acc p => insertDesc p acc) []

/-- `VectorDatabase.search` (the `return_metadata = False` path): score every
record, stable-sort descending, and keep the first `k`. -/
def VectorDB.search {M : Type} (db : VectorDB M) (query_vector : List ℚ)
    (k : Nat) (distance_measure : List ℚ → List ℚ → ℚ) :
    List (String × ℚ) :=
  (sortDesc (db.scoresOf query_vector distance_measure)).take k

/-! ### Concrete stores and measures used by the witnesses -/

/-- A distance measure for witnesses: the head entry of the stored vector. -/
def dm0 : List ℚ → List ℚ → ℚ := fun _ v => v.headD 0

/-- A three-record store with a score tie between keys "a" and "c". -/
def db0 : VectorDB Nat :=
  ((VectorDB.empty.insert "a" [1] (some 1)).insert "b" [2] none).insert
    "c" [1] none

/-- A query vector for witnesses. -/
def q0 : List ℚ := [1]

/-- A one-record store for witnesses. -/
def dbW : VectorDB Nat := VectorDB.empty.insert "a" [1] none

/-!
## Theorems

Helper lemmas first, then one theorem per claim (with witnesses and
counterexamples where required).
-/

/-! ### Association-list lemmas for the vector store -/

theorem assocGet_assocUpdate_self {A : Type} (l : List (String × A))
    (k : String) (v : A) : assocGet (assocUpdate l k v) k = some v := by
  induction l with
  | nil => simp [assocUpdate, assocGet]
  | cons p rest ih =>
    by_cases h : p.1 = k
    · simp [assocUpdate, assocGet, h]
    · simp [assocUpdate, assocGet, h, ih]

theorem assocGet_assocUpdate_ne {A : Type} (l : List (String × A))
    (k k' : String) (v : A) (h : k' ≠ k) :
    assocGet (assocUpdate l k v) k' = assocGet l k' := by
  induction l with
  | nil =>
    simp [assocUpdate, assocGet, Ne.symm h]
  | cons p rest ih =>
    by_cases hp : p.1 = k
    · simp [assocUpdate, assocGet, hp, Ne.symm h]
    · by_cases hp' : p.1 = k'
      · simp [assocUpdate, assocGet, hp, hp', h]
      · simp [assocUpdate, assocGet, hp, hp', ih]

theorem assocGet_of_forall_ne {A : Type} (l : List (String × A)) (k : String)
    (h : ∀ p ∈ l, p.1 ≠ k) : assocGet l k = none := by
  induction l with
  | nil => rfl
  | cons p rest ih =>
    have hp : p.1 ≠ k := h p (List.mem_cons_self p rest)
    simp only [assocGet, if_neg hp]
    exact ih (fun q hq => h q (List.mem_cons_of_mem p hq))

/-! ### Claim C4 — insert overwrite semantics -/

/-- C4 counterexample: insert "k" with metadata 7, then insert "k" again with
metadata None.  The stored metadata is still 7, so the claim that an insert
with an existing key overwrites the prior metadata for every optional
metadata argument fails in the None case. -/
theorem c4_counterexample :
    ((VectorDB.empty.insert "k" [1] (some 7)).insert "k" [2]
        (none : Option Nat)).metadataGet "k" = some 7
    ∧ some 7 ≠ (none : Option Nat) := by
  exact ⟨rfl, by decide⟩

/-- C4 amended: insert always overwrites the stored vector (round-trip and
last-write-wins), overwrites the stored metadata when a metadata argument is
provided, and leaves the prior metadata in place when the metadata argument
is None. -/
theorem c4_insert_overwrite {M : Type} (db : VectorDB M) (key : String)
    (v v2 : List ℚ) (m m2 : Option M) :
    (db.insert key v m).retrieve_from_key key = some v
    ∧ ((db.insert key v m).insert key v2 m2).retrieve_from_key key = some v2
    ∧ (∀ md : M, (db.insert key v (some md)).metadataGet key = some md)
    ∧ (db.insert key v none).metadataGet key = db.metadataGet key := by
  refine ⟨?_, ?_, ?_, rfl⟩
  · exact assocGet_assocUpdate_self db.vectors key v
  · exact assocGet_assocUpdate_self _ key v2
  · intro md
    exact assocGet_assocUpdate_self db.metadata key md

/-! ### Claim C6 — constructor configuration check -/

/-- C6: constructing either splitter with chunk_overlap ≥ chunk_size fails at
construction time with the configuration error, for every such pair of
arguments (and, for the recursive splitter, every separator argument). -/
theorem c6_config_error (cs co : Int) (seps : Option (List (List Char)))
    (h : cs ≤ co) :
    CharacterTextSplitter.make cs co
        = Except.error SplitterError.configurationError
    ∧ RecursiveTextSplitter.make cs co seps
        = Except.error SplitterError.configurationError := by
  have hn : ¬ co < cs := not_lt.mpr h
  exact ⟨by simp [CharacterTextSplitter.make, hn],
    by simp [RecursiveTextSplitter.make, hn]⟩

/-- C6 witness at chunk_size 3, chunk_overlap 5. -/
theorem c6_witness :
    (3 : Int) ≤ 5
    ∧ (CharacterTextSplitter.make 3 5
        = Except.error SplitterError.configurationError
      ∧ RecursiveTextSplitter.make 3 5 none
        = Except.error SplitterError.configurationError) :=
  ⟨by decide, c6_config_error 3 5 none (by decide)⟩

/-! ### Claim C7 — retrieve on an absent key -/

/-- C7: retrieving a key absent from the store returns the explicit
not-found value `none`; the lookup is a total pure function of the store, so
it neither throws nor creates an entry. -/
theorem c7_retrieve_absent {M : Type} (db : VectorDB M) (key : String)
    (h : ∀ p ∈ db.vectors, p.1 ≠ key) :
    db.retrieve_from_key key = none :=
  assocGet_of_forall_ne db.vectors key h

/-- C7 witness: looking up "b" in a store holding only "a". -/
theorem c7_witness :
    (∀ p ∈ dbW.vectors, p.1 ≠ "b") ∧ dbW.retrieve_from_key "b" = none :=
  ⟨by decide, c7_retrieve_absent dbW "b" (by decide)⟩

/-! ### Claim C9 — insert frame property -/

/-- C9: insert only touches the record of its own key: for any other key the
stored vector and the stored metadata are unchanged. -/
theorem c9_insert_frame {M : Type} (db : VectorDB M) (k1 k2 : String)
    (v : List ℚ) (m : Option M) (h : k2 ≠ k1) :
    (db.insert k1 v m).retrieve_from_key k2 = db.retrieve_from_key k2
    ∧ (db.insert k1 v m).metadataGet k2 = db.metadataGet k2 := by
  refine ⟨assocGet_assocUpdate_ne db.vectors k1 k2 v h, ?_⟩
  cases m with
  | none => rfl
  | some md => exact assocGet_assocUpdate_ne db.metadata k1 k2 md h

/-- C9 witness: inserting at "a" leaves key "b" unchanged. -/
theorem c9_witness :
    ("b" : String) ≠ "a"
    ∧ (dbW.insert "a" [5] (some 3)).retrieve_from_key "b"
        = dbW.retrieve_from_key "b"
    ∧ (dbW.insert "a" [5] (some 3)).metadataGet "b" = dbW.metadataGet "b" :=
  ⟨by decide, (c9_insert_frame dbW "a" "b" [5] (some 3) (by decide)).1,
    (c9_insert_frame dbW "a" "b" [5] (some 3) (by decide)).2⟩

/-! ### Claim C5 — paragraph-boundary scenario -/

/-- C5: splitting "AAAA\n\nBBBB\n\nCCCC" with chunk_size 6, chunk_overlap 0
and the default separators yields exactly the chunks "AAAA", "BBBB", "CCCC";
the second conjunct records that every piece produced by the first
(paragraph) separator already fits, so the cut happens on the paragraph
boundary and not through the character-level fallback. -/
theorem c5_paragraph_split :
    recursiveSplit 6 0 defaultSeparators "AAAA\n\nBBBB\n\nCCCC".data
      = ["AAAA".data, "BBBB".data, "CCCC".data]
    ∧ maxSplitLen
        (splitWithSeparator "AAAA\n\nBBBB\n\nCCCC".data ['\n', '\n']) ≤ 6 := by
  exact ⟨by decide, by decide⟩

/-! ### Claim C8 — fixed-window splitter -/

/-- C8 counterexample: with chunk_size 3, chunk_overlap 2 and text "abcd",
the windows are "abc", "bcd", "cd", "d": window 2 is shorter than chunk_size
even though it is not the final window, refuting the claim that only the
final window may be shorter. -/
theorem c8_counterexample :
    characterSplit 3 2 "abcd".data
      = ["abc".data, "bcd".data, "cd".data, "d".data]
    ∧ ("cd".data).length < 3
    ∧ 2 + 1 < (characterSplit 3 2 "abcd".data).length := by
  exact ⟨by decide, by decide, by decide⟩

/-- C8 amended: window i starts at offset i·(chunk_size−chunk_overlap) and
consists of the next chunk_size characters truncated at the end of the text,
so any window reaching past the end — not only the final one — is shorter;
the sequence is finite with ⌈len/step⌉ windows. -/
theorem c8_windows (cs co : Nat) (text : List Char) (h : co < cs) :
    (characterSplit cs co text).length
        = (text.length + (cs - co) - 1) / (cs - co)
    ∧ (∀ i, i < (characterSplit cs co text).length →
        (characterSplit cs co text).getD i []
          = (text.drop (i * (cs - co))).take cs)
    ∧ (∀ i, i < (characterSplit cs co text).length →
        ((characterSplit cs co text).getD i []).length
          = min cs (text.length - i * (cs - co))) := by
  refine ⟨by simp [characterSplit, pyRange], ?_, ?_⟩
  · intro i hi
    have hlen : i < (text.length + (cs - co) - 1) / (cs - co) := by
      simpa [characterSplit, pyRange] using hi
    simp [characterSplit, pyRange, List.getD, List.getElem?_map,
      List.getElem?_range, hlen]
  · intro i hi
    have hlen : i < (text.length + (cs - co) - 1) / (cs - co) := by
      simpa [characterSplit, pyRange] using hi
    simp [characterSplit, pyRange, List.getD, List.getElem?_map,
      List.getElem?_range, hlen, Nat.min_comm]

/-- C8 witness at chunk_size 4, chunk_overlap 0, a ten-character text. -/
theorem c8_witness :
    0 < 4
    ∧ (characterSplit 4 0 "abcdefghij".data).length = (10 + 4 - 1) / 4 :=
  ⟨by decide, by simpa using (c8_windows 4 0 "abcdefghij".data (by decide)).1⟩

/-! ### Claim C10 — the empty input text -/

/-- C10: for every valid configuration with the default separators, splitting
the empty string returns the one-element list holding the empty string, and
that result is exactly what the first (paragraph) separator's split-and-merge
path produces — not the exhausted-separators fallback. -/
theorem c10_empty_split (cs co : Nat) (h : co < cs) :
    recursiveSplit cs co defaultSeparators [] = [[]]
    ∧ recursiveSplit cs co defaultSeparators []
        = mergeSplits cs co (splitWithSeparator [] ['\n', '\n'])
            ['\n', '\n'] := by
  have h1 : recursiveSplit cs co defaultSeparators []
      = mergeSplits cs co [[]] ['\n', '\n'] := by
    have hmax : maxSplitLen (splitWithSeparator [] ['\n', '\n']) = 0 := rfl
    simp [defaultSeparators, recursiveSplit, hmax, splitWithSeparator,
      pySplit, splitOnFuel]
  have h2 : mergeSplits cs co [[]] ['\n', '\n'] = [[]] := by
    simp [mergeSplits, mergeStep, joinSep]
  exact ⟨h1.trans h2, h1⟩

/-- C10 witness at the default configuration chunk_size 1000, overlap 200. -/
theorem c10_witness :
    (200 : Nat) < 1000
    ∧ recursiveSplit 1000 200 defaultSeparators [] = [[]] :=
  ⟨by decide, (c10_empty_split 1000 200 (by decide)).1⟩

/-! ### Sorting lemmas for the vector-store search -/

/-- Membership in `insertDesc` is membership in the list or being the new
element. -/
theorem mem_insertDesc {x p : String × ℚ} {l : List (String × ℚ)}
    (h : x ∈ insertDesc p l) : x = p ∨ x ∈ l := by
  induction l with
  | nil => simpa [insertDesc] using h
  | cons q rest ih =>
    by_cases hq : q.2 < p.2
    · rcases (by simpa [insertDesc, hq] using h :
          x = p ∨ x = q ∨ x ∈ rest) with h1 | h1 | h1
      · exact Or.inl h1
      · exact Or.inr (by simp [h1])
      · exact Or.inr (by simp [h1])
    · rcases (by simpa [insertDesc, hq] using h :
          x = q ∨ x ∈ insertDesc p rest) with h1 | h1
      · exact Or.inr (by simp [h1])
      · rcases ih h1 with h2 | h2
        · exact Or.inl h2
        · exact Or.inr (by simp [h2])

/-- Inserting into a descending-sorted list keeps it descending-sorted. -/
theorem insertDesc_pairwise (p : String × ℚ) (l : List (String × ℚ))
    (h : l.Pairwise (fun a b => b.2 ≤ a.2)) :
    (insertDesc p l).Pairwise (fun a b => b.2 ≤ a.2) := by
  induction l with
  | nil => simp [insertDesc]
  | cons q rest ih =>
    rcases List.pairwise_cons.mp h with ⟨hq, hrest⟩
    by_cases hlt : q.2 < p.2
    · simp only [insertDesc, if_pos hlt]
      refine List.pairwise_cons.mpr ⟨?_, h⟩
      intro b hb
      rcases List.mem_cons.mp hb with hb | hb
      · exact le_of_lt (hb ▸ hlt)
      · exact le_trans (hq b hb) (le_of_lt hlt)
    · simp only [insertDesc, if_neg hlt]
      refine List.pairwise_cons.mpr ⟨?_, ih hrest⟩
      intro b hb
      rcases mem_insertDesc hb with hb | hb
      · exact hb ▸ not_lt.mp hlt
      · exact hq b hb

/-- The stable position: inserting into a descending-sorted list appends the
new element after all previously present elements of its own score. -/
theorem filter_insertDesc (p : String × ℚ) (l : List (String × ℚ)) (s : ℚ)
    (h : l.Pairwise (fun a b => b.2 ≤ a.2)) :
    (insertDesc p l).filter (fun q => decide (q.2 = s))
      = l.filter (fun q => decide (q.2 = s))
        ++ if p.2 = s then [p] else [] := by
  induction l with
  | nil => by_cases hp : p.2 = s <;> simp [insertDesc, hp]
  | cons q rest ih =>
    rcases List.pairwise_cons.mp h with ⟨hq, hrest⟩
    by_cases hlt : q.2 < p.2
    · simp only [insertDesc, if_pos hlt]
      by_cases hp : p.2 = s
      · have hnil : (q :: rest).filter (fun x => decide (x.2 = s)) = [] := by
          refine List.filter_eq_nil_iff.mpr ?_
          intro x hx
          have hxle : x.2 ≤ q.2 := by
            rcases List.mem_cons.mp hx with hx | hx
            · exact hx ▸ le_refl q.2
            · exact hq x hx
          have : x.2 < s := lt_of_le_of_lt hxle (hp ▸ hlt)
          simp [ne_of_lt this]
        have h1 : (p :: q :: rest).filter (fun x => decide (x.2 = s))
            = p :: ((q :: rest).filter (fun x => decide (x.2 = s))) :=
          List.filter_cons_of_pos (by simp [hp])
        rw [h1, hnil]
        simp [hp]
      · simp [List.filter_cons, hp]
    · simp only [insertDesc, if_neg hlt]
      by_cases hqs : q.2 = s <;>
        simp [List.filter_cons, hqs, ih hrest]

/-- Folding `insertDesc` over a list keeps the accumulator sorted. -/
theorem foldl_insertDesc_pairwise (l : List (String × ℚ)) :
    ∀ acc, acc.Pairwise (fun a b => b.2 ≤ a.2) →
      (l.foldl (fun acc p => insertDesc p acc) acc).Pairwise
        (fun a b => b.2 ≤ a.2) := by
  induction l with
  | nil => intro acc h; simpa using h
  | cons p rest ih =>
    intro acc h
    exact ih _ (insertDesc_pairwise p acc h)

/-- The stable descending sort is sorted by descending score. -/
theorem sortDesc_pairwise (l : List (String × ℚ)) :
    (sortDesc l).Pairwise (fun a b => b.2 ≤ a.2) :=
  foldl_insertDesc_pairwise l [] (by simp)

/-- Folding `insertDesc` appends, score class by score class. -/
theorem foldl_insertDesc_filter (s : ℚ) (l : List (String × ℚ)) :
    ∀ acc, acc.Pairwise (fun a b => b.2 ≤ a.2) →
      (l.foldl (fun acc p => insertDesc p acc) acc).filter
          (fun q => decide (q.2 = s))
        = acc.filter (fun q => decide (q.2 = s))
          ++ l.filter (fun q => decide (q.2 = s)) := by
  induction l with
  | nil => intro acc h; simp
  | cons p rest ih =>
    intro acc h
    rw [List.foldl_cons, ih _ (insertDesc_pairwise p acc h),
      filter_insertDesc p acc s h]
    by_cases hp : p.2 = s <;> simp [List.filter_cons, hp]

/-- Stability of the sort: for every score value, the records carrying that
score appear in the sorted list exactly in their stored (insertion) order. -/
theorem sortDesc_filter (l : List (String × ℚ)) (s : ℚ) :
    (sortDesc l).filter (fun q => decide (q.2 = s))
      = l.filter (fun q => decide (q.2 = s)) := by
  simpa using foldl_insertDesc_filter s l [] (by simp)

theorem insertDesc_length (p : String × ℚ) (l : List (String × ℚ)) :
    (insertDesc p l).length = l.length + 1 := by
  induction l with
  | nil => rfl
  | cons q rest ih =>
    by_cases hlt : q.2 < p.2 <;> simp [insertDesc, hlt, ih]

theorem sortDesc_length (l : List (String × ℚ)) :
    (sortDesc l).length = l.length := by
  suffices h : ∀ acc, (l.foldl (fun acc p => insertDesc p acc) acc).length
      = acc.length + l.length by
    simpa using h []
  induction l with
  | nil => intro acc; simp
  | cons p rest ih =>
    intro acc
    rw [List.foldl_cons, ih (insertDesc p acc), insertDesc_length,
      List.length_cons]
    omega

/-! ### Claim C3 — search ordering, stability and truncation -/

/-- C3: for every store, query vector, distance measure and k: search returns
at most k results; the results are ordered by descending score; for every
score value the full sorted score list keeps the tied records in store
(insertion) order — the stable-sort property; and when k is at least the
number of stored records the result is the whole sorted record list (all
records, no error). -/
theorem c3_search_spec {M : Type} (db : VectorDB M) (q : List ℚ)
    (dm : List ℚ → List ℚ → ℚ) (k : Nat) :
    (db.search q k dm).length ≤ k
    ∧ (db.search q k dm).Pairwise (fun a b => b.2 ≤ a.2)
    ∧ (∀ s : ℚ,
        (sortDesc (db.scoresOf q dm)).filter (fun p => decide (p.2 = s))
          = (db.scoresOf q dm).filter (fun p => decide (p.2 = s)))
    ∧ (db.vectors.length ≤ k →
        db.search q k dm = sortDesc (db.scoresOf q dm)
        ∧ (db.search q k dm).length = db.vectors.length) := by
  refine ⟨?_, ?_, ?_, ?_⟩
  · simp [VectorDB.search]
  · exact List.Pairwise.sublist (List.take_sublist _ _) (sortDesc_pairwise _)
  · intro s
    exact sortDesc_filter _ s
  · intro hk
    have hlen : (sortDesc (db.scoresOf q dm)).length = db.vectors.length := by
      simp [sortDesc_length, VectorDB.scoresOf]
    have htake : (sortDesc (db.scoresOf q dm)).take k
        = sortDesc (db.scoresOf q dm) :=
      List.take_of_length_le (by rw [hlen]; exact hk)
    refine ⟨htake, ?_⟩
    show ((sortDesc (db.scoresOf q dm)).take k).length = db.vectors.length
    rw [htake, hlen]

/-- C3 witness on a three-record store with a score tie: k = 5 exceeds the
record count and search returns all three records, tied ones ("a" before
"c") in insertion order. -/
theorem c3_witness :
    db0.vectors.length ≤ 5
    ∧ db0.search q0 5 dm0 = sortDesc (db0.scoresOf q0 dm0)
    ∧ (db0.search q0 5 dm0).length = db0.vectors.length
    ∧ db0.search q0 5 dm0 = [("b", 2), ("a", 1), ("c", 1)] :=
  ⟨by decide, ((c3_search_spec db0 q0 dm0 5).2.2.2 (by decide)).1,
    ((c3_search_spec db0 q0 dm0 5).2.2.2 (by decide)).2, by decide⟩

/-! ### Join and overlap lemmas for the recursive splitter -/

theorem joinSep_append_single (sep : List Char) (l : List (List Char))
    (x : List Char) (h : l ≠ []) :
    joinSep sep (l ++ [x]) = joinSep sep l ++ sep ++ x := by
  induction l with
  | nil => exact absurd rfl h
  | cons a l ih =>
    cases l with
    | nil => simp [joinSep]
    | cons b l' =>
      have h2 := ih (by simp)
      simp only [List.cons_append, joinSep, List.append_eq] at h2 ⊢
      rw [h2]
      simp [List.append_assoc]

/-- With a zero overlap budget, the overlap loop keeps nothing as soon as
the last piece (plus separator) has positive length. -/
theorem takeOverlap_zero (sepLen : Nat) (x : List Char)
    (l acc : List (List Char)) (h : 0 < sepLen + x.length) :
    takeOverlap sepLen 0 (x :: l) 0 acc = acc := by
  have h2 : 0 < 0 + x.length + sepLen := by omega
  simp only [takeOverlap]
  rw [if_pos h2]

/-! ### The merge invariant: with overlap 0 every chunk fits -/

/-- Invariant of the `_merge_splits` loop at `chunk_overlap = 0`: emitted
chunks fit `chunk_size`; the running chunk's pieces are positive (piece plus
separator); `current_length` tracks the joined length plus one separator
length; and the running chunk's joined text fits `chunk_size`. -/
def MergeInv (cs : Nat) (sep : List Char) (st : MergeState) : Prop :=
  (∀ c ∈ st.chunks, c.length ≤ cs)
  ∧ (∀ x ∈ st.cur, 0 < sep.length + x.length)
  ∧ (st.cur = [] → st.curLen = 0)
  ∧ (st.cur ≠ [] →
      st.curLen = (joinSep sep st.cur).length + sep.length
      ∧ (joinSep sep st.cur).length ≤ cs)

theorem mergeStep_inv (cs : Nat) (sep : List Char) (st : MergeState)
    (s : List Char) (hst : MergeInv cs sep st)
    (hpos : 0 < sep.length + s.length) (hle : s.length ≤ cs) :
    MergeInv cs sep (mergeStep cs 0 sep st s) := by
  obtain ⟨hchunks, hcur, hemp, hfull⟩ := hst
  by_cases hg : cs < st.curLen + s.length + sep.length
  · cases hc : st.cur with
    | nil =>
      have hcl : st.curLen = 0 := hemp hc
      have hres : mergeStep cs 0 sep st s
          = ⟨st.chunks, [s], st.curLen + s.length + sep.length⟩ := by
        simp [mergeStep, hg, hc]
      rw [hres]
      refine ⟨hchunks, ?_, by simp, ?_⟩
      · intro x hx
        rcases List.mem_singleton.mp hx with rfl
        exact hpos
      · intro _
        exact ⟨by simp [joinSep, hcl], by simpa [joinSep] using hle⟩
    | cons y l =>
      have hne : st.cur ≠ [] := by simp [hc]
      obtain ⟨hclen, hjlen⟩ := hfull hne
      have hovr : takeOverlap sep.length 0 st.cur.reverse 0 [] = [] := by
        cases hrev : st.cur.reverse with
        | nil => simp [List.reverse_eq_nil_iff.mp hrev] at hne
        | cons z zs =>
          have hz : z ∈ st.cur := by
            rw [← List.mem_reverse, hrev]
            exact List.mem_cons_self z zs
          exact takeOverlap_zero sep.length z zs [] (by
            have := hcur z hz
            omega)
      have hemp' : st.cur.isEmpty = false := by simp [hc]
      have hres : mergeStep cs 0 sep st s
          = ⟨st.chunks ++ [joinSep sep st.cur], [s],
              0 + s.length + sep.length⟩ := by
        simp [mergeStep, hg, hemp', hovr]
      rw [hres]
      refine ⟨?_, ?_, by simp, ?_⟩
      · intro c hcm
        rcases List.mem_append.mp hcm with hcm | hcm
        · exact hchunks c hcm
        · rcases List.mem_singleton.mp hcm with rfl
          exact hjlen
      · intro x hx
        rcases List.mem_singleton.mp hx with rfl
        exact hpos
      · intro _
        exact ⟨by simp [joinSep], by simpa [joinSep] using hle⟩
  · have hres : mergeStep cs 0 sep st s
        = ⟨st.chunks, st.cur ++ [s], st.curLen + s.length + sep.length⟩ := by
      simp [mergeStep, hg]
    rw [hres]
    refine ⟨hchunks, ?_, by simp, ?_⟩
    · intro x hx
      rcases List.mem_append.mp hx with hx | hx
      · exact hcur x hx
      · rcases List.mem_singleton.mp hx with rfl
        exact hpos
    · intro _
      by_cases hc : st.cur = []
      · have hcl : st.curLen = 0 := hemp hc
        have hg' : st.curLen + s.length + sep.length ≤ cs := not_lt.mp hg
        constructor
        · simp [hc, joinSep, hcl]
        · simp only [hc, List.nil_append, joinSep]
          omega
      · obtain ⟨hclen, hjlen⟩ := hfull hc
        have hj : joinSep sep (st.cur ++ [s])
            = joinSep sep st.cur ++ sep ++ s :=
          joinSep_append_single sep st.cur s hc
        have hg' : st.curLen + s.length + sep.length ≤ cs := not_lt.mp hg
        constructor
        · show st.curLen + s.length + sep.length
            = (joinSep sep (st.cur ++ [s])).length + sep.length
          rw [hj]
          simp only [List.length_append]
          omega
        · show (joinSep sep (st.cur ++ [s])).length ≤ cs
          rw [hj]
          simp only [List.length_append]
          omega

theorem foldl_mergeStep_inv (cs : Nat) (sep : List Char) :
    ∀ (splits : List (List Char)) (st : MergeState),
      MergeInv cs sep st →
      (∀ s ∈ splits, 0 < sep.length + s.length) →
      (∀ s ∈ splits, s.length ≤ cs) →
      MergeInv cs sep (splits.foldl (mergeStep cs 0 sep) st) := by
  intro splits
  induction splits with
  | nil => intro st h _ _; simpa using h
  | cons s rest ih =>
    intro st h hpos hle
    rw [List.foldl_cons]
    exact ih _
      (mergeStep_inv cs sep st s h
        (hpos s (List.mem_cons_self s rest))
        (hle s (List.mem_cons_self s rest)))
      (fun x hx => hpos x (List.mem_cons_of_mem s hx))
      (fun x hx => hle x (List.mem_cons_of_mem s hx))

/-- With `chunk_overlap = 0`, when every piece fed to `_merge_splits` fits
`chunk_size` (and pieces are non-degenerate for the empty separator), every
produced chunk fits `chunk_size`. -/
theorem mergeSplits_length_le (cs : Nat) (sep : List Char)
    (splits : List (List Char))
    (hpos : ∀ s ∈ splits, 0 < sep.length + s.length)
    (hle : ∀ s ∈ splits, s.length ≤ cs) :
    ∀ chunk ∈ mergeSplits cs 0 splits sep, chunk.length ≤ cs := by
  intro chunk hchunk
  have hinv : MergeInv cs sep
      (splits.foldl (mergeStep cs 0 sep) ⟨[], [], 0⟩) :=
    foldl_mergeStep_inv cs sep splits ⟨[], [], 0⟩
      ⟨by simp, by simp, fun _ => rfl, fun h => absurd rfl h⟩ hpos hle
  set st := splits.foldl (mergeStep cs 0 sep) ⟨[], [], 0⟩ with hst
  obtain ⟨hchunks, _, _, hfull⟩ := hinv
  by_cases hc : st.cur.isEmpty
  · rw [mergeSplits, ← hst] at hchunk
    simp only [hc, if_pos] at hchunk
    exact hchunks chunk hchunk
  · rw [mergeSplits, ← hst] at hchunk
    simp only [hc, if_neg, Bool.false_eq_true, not_false_eq_true] at hchunk
    rcases List.mem_append.mp hchunk with hm | hm
    · exact hchunks chunk hm
    · rcases List.mem_singleton.mp hm with rfl
      exact (hfull (by simpa using hc)).2

/-! ### Bounds on `maxSplitLen` and facts about the separator pieces -/

theorem init_le_foldl_max (l : List Nat) :
    ∀ init, init ≤ l.foldl Nat.max init := by
  induction l with
  | nil => intro init; simp
  | cons b rest ih =>
    intro init
    calc init ≤ Nat.max init b := Nat.le_max_left _ _
      _ ≤ rest.foldl Nat.max (Nat.max init b) := ih _

theorem le_foldl_max (l : List Nat) :
    ∀ (init a : Nat), a ∈ l → a ≤ l.foldl Nat.max init := by
  induction l with
  | nil => intro _ a ha; simp at ha
  | cons b rest ih =>
    intro init a ha
    rcases List.mem_cons.mp ha with rfl | ha
    · calc a ≤ Nat.max init a := Nat.le_max_right _ _
        _ ≤ rest.foldl Nat.max (Nat.max init a) := init_le_foldl_max rest _
    · exact ih _ a ha

theorem foldl_max_le (l : List Nat) :
    ∀ (init b : Nat), init ≤ b → (∀ a ∈ l, a ≤ b) →
      l.foldl Nat.max init ≤ b := by
  induction l with
  | nil => intro init b h _; simpa using h
  | cons a rest ih =>
    intro init b h hall
    rw [List.foldl_cons]
    exact ih _ b (Nat.max_le.mpr ⟨h, hall a (List.mem_cons_self a rest)⟩)
      (fun x hx => hall x (List.mem_cons_of_mem a hx))

theorem length_le_maxSplitLen {s : List Char} {splits : List (List Char)}
    (h : s ∈ splits) : s.length ≤ maxSplitLen splits :=
  le_foldl_max _ 0 s.length (List.mem_map_of_mem List.length h)

theorem splitWithSeparator_pos (text sep : List Char) :
    ∀ s ∈ splitWithSeparator text sep, 0 < sep.length + s.length := by
  intro s hs
  cases sep with
  | nil =>
    simp only [splitWithSeparator, List.isEmpty_nil, if_pos] at hs
    obtain ⟨c, _, rfl⟩ := List.mem_map.mp hs
    simp
  | cons c0 sep' => simp [List.length_cons]

theorem maxSplitLen_chars_le (text : List Char) :
    maxSplitLen (splitWithSeparator text []) ≤ 1 := by
  refine foldl_max_le _ 0 1 (by omega) ?_
  intro a ha
  obtain ⟨s, hs, rfl⟩ := List.mem_map.mp ha
  simp only [splitWithSeparator, List.isEmpty_nil, if_pos] at hs
  obtain ⟨c, _, rfl⟩ := List.mem_map.mp hs
  simp

/-! ### Unfolding lemmas for `recursiveSplit` -/

theorem recursiveSplit_cons_small (cs co : Nat) (sep : List Char)
    (rest : List (List Char)) (text : List Char)
    (h : maxSplitLen (splitWithSeparator text sep) ≤ cs) :
    recursiveSplit cs co (sep :: rest) text
      = mergeSplits cs co (splitWithSeparator text sep) sep := by
  simp [recursiveSplit, h]

theorem recursiveSplit_cons_last (cs co : Nat) (sep : List Char)
    (text : List Char) :
    recursiveSplit cs co [sep] text
      = mergeSplits cs co (splitWithSeparator text sep) sep := by
  by_cases h : maxSplitLen (splitWithSeparator text sep) ≤ cs <;>
    simp [recursiveSplit, h]

theorem recursiveSplit_cons_big (cs co : Nat) (sep : List Char)
    (rest : List (List Char)) (text : List Char)
    (h : ¬ maxSplitLen (splitWithSeparator text sep) ≤ cs)
    (hr : rest ≠ []) :
    recursiveSplit cs co (sep :: rest) text
      = mergeSplits cs co
          ((splitWithSeparator text sep).flatMap (fun s =>
            if s.length ≤ cs then [s]
            else recursiveSplit cs co rest s)) sep := by
  simp [recursiveSplit, h, hr]

/-! ### Claim C1 — chunk-size bound -/

/-- The general bound behind C1: with `chunk_overlap = 0` and a separator
list ending in the character-level fallback, every chunk of
`recursiveSplit` fits `chunk_size`. -/
theorem recursiveSplit_length_le (cs : Nat) (hcs : 1 ≤ cs) :
    ∀ (seps : List (List Char)), seps.getLast? = some [] →
      ∀ (text chunk : List Char),
        chunk ∈ recursiveSplit cs 0 seps text → chunk.length ≤ cs := by
  intro seps
  induction seps with
  | nil => intro h; simp at h
  | cons sep rest ih =>
    intro hlast text chunk hchunk
    cases rest with
    | nil =>
      have hsep : sep = [] := by simpa using hlast
      subst hsep
      rw [recursiveSplit_cons_last] at hchunk
      refine mergeSplits_length_le cs [] _ (splitWithSeparator_pos text [])
        ?_ chunk hchunk
      intro s hs
      exact le_trans (le_trans (length_le_maxSplitLen hs)
        (maxSplitLen_chars_le text)) hcs
    | cons r rs =>
      have hlast' : (r :: rs).getLast? = some [] := by
        rwa [List.getLast?_cons_cons] at hlast
      by_cases hmax : maxSplitLen (splitWithSeparator text sep) ≤ cs
      · rw [recursiveSplit_cons_small cs 0 sep (r :: rs) text hmax] at hchunk
        refine mergeSplits_length_le cs sep _ (splitWithSeparator_pos text sep)
          ?_ chunk hchunk
        intro s hs
        exact le_trans (length_le_maxSplitLen hs) hmax
      · have hsep : sep ≠ [] := by
          intro hnil
          subst hnil
          exact hmax (le_trans (maxSplitLen_chars_le text) hcs)
        rw [recursiveSplit_cons_big cs 0 sep (r :: rs) text hmax
          (by simp)] at hchunk
        refine mergeSplits_length_le cs sep _ ?_ ?_ chunk hchunk
        · intro s _
          have : 0 < sep.length := List.length_pos.mpr hsep
          omega
        · intro s hs
          obtain ⟨t, ht, hst⟩ := List.mem_flatMap.mp hs
          by_cases htl : t.length ≤ cs
          · rw [if_pos htl] at hst
            rcases List.mem_singleton.mp hst with rfl
            exact htl
          · rw [if_neg htl] at hst
            exact ih hlast' t s hst

/-- C1 amended: with `chunk_overlap = 0` (and the default separators) every
chunk produced by the recursive splitter has length at most `chunk_size`;
with a positive overlap the bound fails, because after a flush the
overlap-seeded pieces plus the next piece are joined without a re-check of
the budget (see the counterexample). -/
theorem c1_chunk_size_bound (cs : Nat) (text : List Char) (h : 1 ≤ cs) :
    ∀ chunk ∈ recursiveSplit cs 0 defaultSeparators text,
      chunk.length ≤ cs :=
  recursiveSplit_length_le cs h defaultSeparators (by simp [defaultSeparators])
    text

/-- C1 witness: the bound instantiated on the paragraph scenario. -/
theorem c1_witness :
    1 ≤ 6
    ∧ "AAAA".data ∈ recursiveSplit 6 0 defaultSeparators
        "AAAA\n\nBBBB\n\nCCCC".data
    ∧ ("AAAA".data).length ≤ 6 :=
  ⟨by decide, by decide,
    c1_chunk_size_bound 6 "AAAA\n\nBBBB\n\nCCCC".data (by decide)
      "AAAA".data (by decide)⟩

/-- C1 counterexample: with chunk_size 10 and chunk_overlap 9 the input
"aaaa bbbbbbbbbb" produces a 32-character second chunk (the overlap seeding
re-adds "aaaa" at every separator level and the oversized piece is appended
without a budget re-check), so the claimed bound fails and not in a
single-character terminal case. -/
theorem c1_counterexample :
    recursiveSplit 10 9 defaultSeparators "aaaa bbbbbbbbbb".data
      = ["aaaa".data, "aaaa\n\naaaa\naaaa. aaaa bbbbbbbbbb".data]
    ∧ 10 < ("aaaa\n\naaaa\naaaa. aaaa bbbbbbbbbb".data).length := by
  exact ⟨by decide, by decide⟩

/-! ### Character-count lemmas for the coverage property (C2) -/

theorem splitOnFuel_ne_nil (sep : List Char) :
    ∀ (fuel : Nat) (t : List Char), splitOnFuel sep fuel t ≠ [] := by
  intro fuel
  induction fuel with
  | zero =>
    intro t
    cases t <;> simp [splitOnFuel]
  | succ f ih =>
    intro t
    cases t with
    | nil => simp [splitOnFuel]
    | cons b rest =>
      simp only [splitOnFuel]
      by_cases h : sep.isPrefixOf (b :: rest) = true
      · rw [if_pos h]
        simp
      · rw [if_neg h]
        cases hsf : splitOnFuel sep f rest with
        | nil => exact absurd hsf (ih rest)
        | cons g gs => simp

/-- A successful prefix test decomposes the list. -/
theorem isPrefixOf_append :
    ∀ (l t : List Char), l.isPrefixOf t = true → t = l ++ t.drop l.length := by
  intro l
  induction l with
  | nil => intro t _; simp
  | cons a l ih =>
    intro t h
    cases t with
    | nil => simp [List.isPrefixOf] at h
    | cons b t' =>
      simp only [List.isPrefixOf, Bool.and_eq_true, beq_iff_eq] at h
      obtain ⟨rfl, h2⟩ := h
      simp only [List.length_cons, List.drop_succ_cons, List.cons_append,
        List.cons.injEq, true_and]
      exact ih t' h2

/-- Splitting preserves the total count of any character not occurring in
the separator. -/
theorem splitOnFuel_count (sep : List Char) (c : Char) (hc : c ∉ sep) :
    ∀ (fuel : Nat) (t : List Char),
      ((splitOnFuel sep fuel t).map (List.count c)).sum = List.count c t := by
  intro fuel
  induction fuel with
  | zero =>
    intro t
    cases t <;> simp [splitOnFuel]
  | succ f ih =>
    intro t
    cases t with
    | nil => simp [splitOnFuel]
    | cons b rest =>
      simp only [splitOnFuel]
      by_cases h : sep.isPrefixOf (b :: rest) = true
      · rw [if_pos h]
        simp only [List.map_cons, List.sum_cons, List.count_nil]
        rw [ih (List.drop sep.length (b :: rest))]
        conv_rhs => rw [isPrefixOf_append sep (b :: rest) h]
        rw [List.count_append, List.count_eq_zero_of_not_mem hc]
      · rw [if_neg h]
        cases hsf : splitOnFuel sep f rest with
        | nil => exact absurd hsf (splitOnFuel_ne_nil sep f rest)
        | cons g gs =>
          have ihr := ih rest
          rw [hsf] at ihr
          simp only [List.map_cons, List.sum_cons] at ihr ⊢
          cases hcb : c == b <;>
            simp only [List.count_cons, hcb] <;> omega

theorem splitWithSeparator_count (text sep : List Char) (c : Char)
    (hc : c ∉ sep) :
    ((splitWithSeparator text sep).map (List.count c)).sum
      = List.count c text := by
  cases sep with
  | nil =>
    simp only [splitWithSeparator, List.isEmpty_nil, if_pos]
    induction text with
    | nil => simp
    | cons b rest ih =>
      simp only [List.map_cons, List.sum_cons] at ih ⊢
      cases hcb : c == b <;>
        simp only [List.count_cons, List.count_nil, hcb] <;> omega
  | cons c0 sep' =>
    simp only [splitWithSeparator, List.isEmpty_cons, Bool.false_eq_true,
      if_neg, pySplit]
    exact splitOnFuel_count (c0 :: sep') c hc _ _

/-- Joining never loses characters: the join holds at least the pieces. -/
theorem count_joinSep_ge (sep : List Char) (c : Char) :
    ∀ (l : List (List Char)),
      (l.map (List.count c)).sum ≤ List.count c (joinSep sep l) := by
  intro l
  induction l with
  | nil => simp [joinSep]
  | cons x l ih =>
    cases l with
    | nil => simp [joinSep]
    | cons y l' =>
      simp only [joinSep, List.count_append, List.map_cons,
        List.sum_cons] at ih ⊢
      omega

/-- One merge iteration never loses characters: the new state holds at
least the old state's characters plus the new piece's. -/
theorem mergeStep_count_ge (cs co : Nat) (sep : List Char) (c : Char)
    (st : MergeState) (s : List Char) :
    (st.chunks.map (List.count c)).sum + (st.cur.map (List.count c)).sum
        + List.count c s
      ≤ ((mergeStep cs co sep st s).chunks.map (List.count c)).sum
        + ((mergeStep cs co sep st s).cur.map (List.count c)).sum := by
  by_cases hg : cs < st.curLen + s.length + sep.length
  · by_cases hemp : st.cur.isEmpty = true
    · have hres : mergeStep cs co sep st s
          = ⟨st.chunks, st.cur ++ [s],
              st.curLen + s.length + sep.length⟩ := by
        simp [mergeStep, hg, hemp]
      rw [hres]
      simp only [List.map_append, List.sum_append, List.map_cons,
        List.sum_cons, List.sum_nil]
      omega
    · have hres : mergeStep cs co sep st s
          = ⟨st.chunks ++ [joinSep sep st.cur],
              takeOverlap sep.length co st.cur.reverse 0 [] ++ [s],
              ((takeOverlap sep.length co st.cur.reverse 0 []).map
                  List.length).sum
                + sep.length
                  * ((takeOverlap sep.length co st.cur.reverse 0 []).length
                      - 1)
                + s.length + sep.length⟩ := by
        simp [mergeStep, hg, hemp]
      rw [hres]
      have h1 := count_joinSep_ge sep c st.cur
      simp only [List.map_append, List.sum_append, List.map_cons,
        List.sum_cons, List.sum_nil]
      omega
  · have hres : mergeStep cs co sep st s
        = ⟨st.chunks, st.cur ++ [s],
            st.curLen + s.length + sep.length⟩ := by
      simp [mergeStep, hg]
    rw [hres]
    simp only [List.map_append, List.sum_append, List.map_cons,
      List.sum_cons, List.sum_nil]
    omega

theorem foldl_mergeStep_count_ge (cs co : Nat) (sep : List Char) (c : Char) :
    ∀ (splits : List (List Char)) (st : MergeState),
      (st.chunks.map (List.count c)).sum + (st.cur.map (List.count c)).sum
          + (splits.map (List.count c)).sum
        ≤ (((splits.foldl (mergeStep cs co sep) st).chunks).map
              (List.count c)).sum
          + (((splits.foldl (mergeStep cs co sep) st).cur).map
              (List.count c)).sum := by
  intro splits
  induction splits with
  | nil =>
    intro st
    simp
  | cons s rest ih =>
    intro st
    rw [List.foldl_cons]
    have h1 := mergeStep_count_ge cs co sep c st s
    have h2 := ih (mergeStep cs co sep st s)
    simp only [List.map_cons, List.sum_cons] at h2 ⊢
    omega

/-- `_merge_splits` never drops characters of its input pieces. -/
theorem mergeSplits_count_ge (cs co : Nat) (sep : List Char) (c : Char)
    (splits : List (List Char)) :
    (splits.map (List.count c)).sum
      ≤ ((mergeSplits cs co splits sep).map (List.count c)).sum := by
  have h := foldl_mergeStep_count_ge cs co sep c splits ⟨[], [], 0⟩
  simp only [List.map_nil, List.sum_nil, Nat.zero_add] at h
  set st := splits.foldl (mergeStep cs co sep) ⟨[], [], 0⟩ with hst
  rw [mergeSplits, ← hst]
  by_cases hc2 : st.cur.isEmpty = true
  · rw [if_pos hc2]
    have : st.cur = [] := by simpa using hc2
    rw [this] at h
    simpa using h
  · rw [if_neg hc2]
    have h1 := count_joinSep_ge sep c st.cur
    simp only [List.map_append, List.sum_append, List.map_cons,
      List.sum_cons, List.sum_nil]
    omega

theorem flatMap_count_ge (c : Char) (F : List Char → List (List Char)) :
    ∀ (splits : List (List Char)),
      (∀ s ∈ splits, List.count c s ≤ ((F s).map (List.count c)).sum) →
      (splits.map (List.count c)).sum
        ≤ ((splits.flatMap F).map (List.count c)).sum := by
  intro splits
  induction splits with
  | nil => intro _; simp
  | cons s rest ih =>
    intro hall
    have h1 := hall s (List.mem_cons_self s rest)
    have h2 := ih (fun x hx => hall x (List.mem_cons_of_mem s hx))
    simp only [List.flatMap_cons, List.map_cons, List.sum_cons,
      List.map_append, List.sum_append]
    omega

/-- The coverage bound behind C2: for any configuration and any character
occurring in no separator, the split output holds at least every occurrence
of that character. -/
theorem recursiveSplit_count_ge (cs co : Nat) (c : Char) :
    ∀ (seps : List (List Char)), (∀ sep ∈ seps, c ∉ sep) →
      ∀ (text : List Char),
        List.count c text
          ≤ ((recursiveSplit cs co seps text).map (List.count c)).sum := by
  intro seps
  induction seps with
  | nil =>
    intro _ text
    simp [recursiveSplit]
  | cons sep rest ih =>
    intro hsep text
    have hcsep : c ∉ sep := hsep sep (List.mem_cons_self sep rest)
    have hrest : ∀ x ∈ rest, c ∉ x :=
      fun x hx => hsep x (List.mem_cons_of_mem sep hx)
    by_cases hmax : maxSplitLen (splitWithSeparator text sep) ≤ cs
    · rw [recursiveSplit_cons_small cs co sep rest text hmax]
      calc List.count c text
          = ((splitWithSeparator text sep).map (List.count c)).sum :=
            (splitWithSeparator_count text sep c hcsep).symm
        _ ≤ _ := mergeSplits_count_ge cs co sep c _
    · cases rest with
      | nil =>
        rw [recursiveSplit_cons_last]
        calc List.count c text
            = ((splitWithSeparator text sep).map (List.count c)).sum :=
              (splitWithSeparator_count text sep c hcsep).symm
          _ ≤ _ := mergeSplits_count_ge cs co sep c _
      | cons r rs =>
        rw [recursiveSplit_cons_big cs co sep (r :: rs) text hmax (by simp)]
        calc List.count c text
            = ((splitWithSeparator text sep).map (List.count c)).sum :=
              (splitWithSeparator_count text sep c hcsep).symm
          _ ≤ (((splitWithSeparator text sep).flatMap (fun s =>
                if s.length ≤ cs then [s]
                else recursiveSplit cs co (r :: rs) s)).map
                  (List.count c)).sum := by
              refine flatMap_count_ge c _ _ ?_
              intro s _
              by_cases hsl : s.length ≤ cs
              · simp [hsl]
              · rw [if_neg hsl]
                exact ih hrest s
          _ ≤ _ := mergeSplits_count_ge cs co sep c _

/-! ### Claim C2 — character coverage -/

/-- C2 amended: concatenating the chunks (in order) covers every occurrence
of every non-separator character of the input at least once; characters that
belong to separator occurrences consumed at cut points may be dropped (see
the counterexample), which is the only amendment to the claim. -/
theorem c2_coverage (cs co : Nat) (text : List Char) (c : Char)
    (hvalid : co < cs) (hc : c ≠ '\n' ∧ c ≠ '.' ∧ c ≠ ' ') :
    List.count c text
      ≤ List.count c (recursiveSplit cs co defaultSeparators text).flatten := by
  have hsep : ∀ sep ∈ defaultSeparators, c ∉ sep := by
    intro sep hs
    simp only [defaultSeparators, List.mem_cons, List.not_mem_nil,
      or_false] at hs
    rcases hs with rfl | rfl | rfl | rfl | rfl <;>
      simp [hc.1, hc.2.1, hc.2.2]
  rw [List.count_flatten]
  exact recursiveSplit_count_ge cs co c defaultSeparators hsep text

/-- C2 witness: every occurrence of the letter A of the paragraph scenario
is covered. -/
theorem c2_witness :
    (0 : Nat) < 6
    ∧ ('A' ≠ '\n' ∧ 'A' ≠ '.' ∧ 'A' ≠ ' ')
    ∧ List.count 'A' "AAAA\n\nBBBB\n\nCCCC".data
        ≤ List.count 'A'
            (recursiveSplit 6 0 defaultSeparators
              "AAAA\n\nBBBB\n\nCCCC".data).flatten :=
  ⟨by decide, by decide,
    c2_coverage 6 0 "AAAA\n\nBBBB\n\nCCCC".data 'A' (by decide) (by decide)⟩

/-- C2 counterexample: splitting "a\n\nb" with chunk_size 2 and overlap 0
yields the chunks "a" and "b".  With a zero overlap there are no overlapping
portions, so the reconstructed text is the plain concatenation "ab", which
contains no newline although the input contains two: characters of the
input are dropped, refuting the claim as stated. -/
theorem c2_counterexample :
    recursiveSplit 2 0 defaultSeparators "a\n\nb".data = [['a'], ['b']]
    ∧ List.count '\n'
        (recursiveSplit 2 0 defaultSeparators "a\n\nb".data).flatten = 0
    ∧ 0 < List.count '\n' "a\n\nb".data := by
  exact ⟨by decide, by decide, by decide⟩

end AIMS

